import Mathlib

/-!
Verification of the interactive line picker `choose.py` against its
natural-language specification.

The development shallowly embeds the program:

* a small regular-expression engine (`RE`, `compileChars`, `reSearch`)
  models the subset of Python's `re` module that the program exercises
  (literal characters, `.`, `*`, `+`, `?`, `|`, groups, and the
  `re.IGNORECASE` flag); patterns using other `re` syntax (anchors,
  character classes, escapes, braces) are rejected by the embedded
  compiler, so statements quantifying over successfully compiled
  patterns range over this supported subset;
* `filter_fuzzy` / `filter_regex` embed the two filter strategies; a
  compilation failure (Python `re.error`) is surfaced as `Except.error`,
  mirroring an exception escaping the function;
* `LoopState`, `recompute`, `dispatch`, `run` embed the interaction
  loop of the `__main__` block, with Python's `IndexError` surfaced as
  `Except.error`; `run` consumes the sequence of already-decoded key
  events (the values `get_input` returns), and `get_input` itself is
  embedded separately over the raw character stream;
* `render` embeds the viewport renderer as the list of textual rows it
  writes (cursor positioning and SGR colouring carry no text content).
-/

namespace Choose

/-! ## Regular-expression engine (model of the used subset of Python `re`) -/

/-- Abstract syntax of the supported regular expressions.  `dot` is
Python's `.` (any character except a newline). -/
inductive RE where
  | fail
  | eps
  | ch (c : Char)
  | dot
  | seq (a b : RE)
  | alt (a b : RE)
  | star (a : RE)
deriving DecidableEq

/-- Character comparison; `ci = true` models `re.IGNORECASE`. -/
def cmatch (ci : Bool) (p c : Char) : Bool :=
  if ci then p.toLower = c.toLower else p = c

/-- Does the expression accept the empty string? -/
def nullable : RE → Bool
  | .fail => false
  | .eps => true
  | .ch _ => false
  | .dot => false
  | .seq a b => nullable a && nullable b
  | .alt a b => nullable a || nullable b
  | .star _ => true

/-- Brzozowski derivative of an expression by one character. -/
def deriv (ci : Bool) : RE → Char → RE
  | .fail, _ => .fail
  | .eps, _ => .fail
  | .ch p, c => if cmatch ci p c then .eps else .fail
  | .dot, c => if c = '\n' then .fail else .eps
  | .seq a b, c =>
      if nullable a then .alt (.seq (deriv ci a c) b) (deriv ci b c)
      else .seq (deriv ci a c) b
  | .alt a b, c => .alt (deriv ci a c) (deriv ci b c)
  | .star a, c => .seq (deriv ci a c) (.star a)

/-- Does the expression match some (possibly empty) initial segment of
the input?  Together with `reSearch` this models the boolean outcome of
Python's `pattern.search`. -/
def matchSomeInit (ci : Bool) (r : RE) : List Char → Bool
  | [] => nullable r
  | c :: cs => nullable r || matchSomeInit ci (deriv ci r c) cs

/-- Boolean outcome of Python's `pattern.search(s)`: the expression
matches somewhere inside the input. -/
def reSearch (ci : Bool) (r : RE) : List Char → Bool
  | [] => nullable r
  | c :: cs => matchSomeInit ci r (c :: cs) || reSearch ci r cs

/-- Language semantics of the expressions. -/
inductive Sem (ci : Bool) : RE → List Char → Prop where
  | eps : Sem ci .eps []
  | ch {p c : Char} : cmatch ci p c = true → Sem ci (.ch p) [c]
  | dot {c : Char} : c ≠ '\n' → Sem ci .dot [c]
  | seq {a b : RE} {s t : List Char} :
      Sem ci a s → Sem ci b t → Sem ci (.seq a b) (s ++ t)
  | altL {a b : RE} {s : List Char} : Sem ci a s → Sem ci (.alt a b) s
  | altR {a b : RE} {s : List Char} : Sem ci b s → Sem ci (.alt a b) s
  | starNil {a : RE} : Sem ci (.star a) []
  | starCons {a : RE} {s t : List Char} :
      Sem ci a s → Sem ci (.star a) t → Sem ci (.star a) (s ++ t)

theorem sem_fail_inv {ci : Bool} {w : List Char} (h : Sem ci .fail w) : False := by
  cases h

theorem sem_eps_inv {ci : Bool} {w : List Char} (h : Sem ci .eps w) : w = [] := by
  cases h; rfl

theorem sem_ch_inv {ci : Bool} {p : Char} {w : List Char} (h : Sem ci (.ch p) w) :
    ∃ c, w = [c] ∧ cmatch ci p c = true := by
  cases h with
  | ch hc => exact ⟨_, rfl, hc⟩

theorem sem_dot_inv {ci : Bool} {w : List Char} (h : Sem ci .dot w) :
    ∃ c, w = [c] ∧ c ≠ '\n' := by
  cases h with
  | dot hc => exact ⟨_, rfl, hc⟩

theorem sem_seq_inv {ci : Bool} {a b : RE} {w : List Char}
    (h : Sem ci (.seq a b) w) :
    ∃ u v, w = u ++ v ∧ Sem ci a u ∧ Sem ci b v := by
  cases h with
  | seq hu hv => exact ⟨_, _, rfl, hu, hv⟩

theorem sem_alt_inv {ci : Bool} {a b : RE} {w : List Char}
    (h : Sem ci (.alt a b) w) : Sem ci a w ∨ Sem ci b w := by
  cases h with
  | altL h1 => exact Or.inl h1
  | altR h1 => exact Or.inr h1

theorem nullable_iff {ci : Bool} : ∀ r : RE, nullable r = true ↔ Sem ci r [] := by
  intro r
  induction r with
  | fail =>
      constructor
      · intro h; exact absurd h (by simp [nullable])
      · intro h; exact absurd h sem_fail_inv
  | eps =>
      exact ⟨fun _ => .eps, fun _ => rfl⟩
  | ch c =>
      constructor
      · intro h; exact absurd h (by simp [nullable])
      · intro h
        obtain ⟨c', hw, _⟩ := sem_ch_inv h
        cases hw
  | dot =>
      constructor
      · intro h; exact absurd h (by simp [nullable])
      · intro h
        obtain ⟨c', hw, _⟩ := sem_dot_inv h
        cases hw
  | seq a b iha ihb =>
      simp only [nullable, Bool.and_eq_true]
      constructor
      · rintro ⟨ha, hb⟩
        have := Sem.seq (iha.mp ha) (ihb.mp hb)
        simpa using this
      · intro h
        obtain ⟨u, v, huv, hu, hv⟩ := sem_seq_inv h
        obtain ⟨hu0, hv0⟩ := List.append_eq_nil.mp huv.symm
        subst hu0; subst hv0
        exact ⟨iha.mpr hu, ihb.mpr hv⟩
  | alt a b iha ihb =>
      simp only [nullable, Bool.or_eq_true]
      constructor
      · rintro (ha | hb)
        · exact .altL (iha.mp ha)
        · exact .altR (ihb.mp hb)
      · intro h
        rcases sem_alt_inv h with h1 | h1
        · exact Or.inl (iha.mpr h1)
        · exact Or.inr (ihb.mpr h1)
  | star a iha =>
      exact ⟨fun _ => .starNil, fun _ => rfl⟩

/-- A nonempty word of `star a` splits into a nonempty word of `a`
followed by a word of `star a`. -/
theorem sem_star_decomp {ci : Bool} {r : RE} {w : List Char} (h : Sem ci r w) :
    ∀ a : RE, r = .star a →
      w = [] ∨ ∃ s t, w = s ++ t ∧ s ≠ [] ∧ Sem ci a s ∧ Sem ci (.star a) t := by
  induction h with
  | eps => intro a hr; cases hr
  | ch _ => intro a hr; cases hr
  | dot _ => intro a hr; cases hr
  | seq _ _ _ _ => intro a hr; cases hr
  | altL _ _ => intro a hr; cases hr
  | altR _ _ => intro a hr; cases hr
  | starNil => intro a hr; exact Or.inl rfl
  | starCons hs ht ihs iht =>
      rename_i a1 s1 t1
      intro a hr
      injection hr with ha
      subst ha
      by_cases hse : s1 = []
      · subst hse
        simpa using iht a1 rfl
      · exact Or.inr ⟨s1, t1, rfl, hse, hs, ht⟩

theorem deriv_iff {ci : Bool} :
    ∀ (r : RE) (c : Char) (s : List Char),
      Sem ci (deriv ci r c) s ↔ Sem ci r (c :: s) := by
  intro r
  induction r with
  | fail =>
      intro c s
      simp only [deriv]
      constructor
      · intro h; exact absurd h sem_fail_inv
      · intro h; exact absurd h sem_fail_inv
  | eps =>
      intro c s
      simp only [deriv]
      constructor
      · intro h; exact absurd h sem_fail_inv
      · intro h; exact absurd (sem_eps_inv h) (by simp)
  | ch p =>
      intro c s
      simp only [deriv]
      by_cases hc : cmatch ci p c = true
      · simp only [hc, if_true]
        constructor
        · intro h
          have hs := sem_eps_inv h
          subst hs
          exact .ch hc
        · intro h
          obtain ⟨c', hw, _⟩ := sem_ch_inv h
          simp only [List.cons.injEq] at hw
          obtain ⟨_, hs⟩ := hw
          subst hs
          exact .eps
      · simp only [hc, if_false]
        constructor
        · intro h; exact absurd h sem_fail_inv
        · intro h
          obtain ⟨c', hw, hm⟩ := sem_ch_inv h
          simp only [List.cons.injEq] at hw
          obtain ⟨hcc, _⟩ := hw
          subst hcc
          exact absurd hm hc
  | dot =>
      intro c s
      simp only [deriv]
      by_cases hc : c = '\n'
      · simp only [hc, if_true]
        constructor
        · intro h; exact absurd h sem_fail_inv
        · intro h
          obtain ⟨c', hw, hne⟩ := sem_dot_inv h
          simp only [List.cons.injEq] at hw
          obtain ⟨hcc, _⟩ := hw
          exact absurd (hc ▸ hcc.symm) hne
      · simp only [hc, if_false]
        constructor
        · intro h
          have hs := sem_eps_inv h
          subst hs
          exact .dot hc
        · intro h
          obtain ⟨c', hw, _⟩ := sem_dot_inv h
          simp only [List.cons.injEq] at hw
          obtain ⟨_, hs⟩ := hw
          subst hs
          exact .eps
  | seq a b iha ihb =>
      intro c s
      by_cases hn : nullable a = true
      · simp only [deriv, hn, if_true]
        constructor
        · intro h
          rcases sem_alt_inv h with h1 | h1
          · obtain ⟨u, v, huv, hu, hv⟩ := sem_seq_inv h1
            subst huv
            have hu' := (iha _ _).mp hu
            have := Sem.seq hu' hv
            simpa using this
          · have hb' := (ihb _ _).mp h1
            have ha0 : Sem ci a [] := (nullable_iff a).mp hn
            have := Sem.seq ha0 hb'
            simpa using this
        · intro h
          obtain ⟨u, v, huv, hu, hv⟩ := sem_seq_inv h
          cases u with
          | nil =>
              simp only [List.nil_append] at huv
              subst huv
              exact .altR ((ihb _ _).mpr hv)
          | cons c' u' =>
              simp only [List.cons_append, List.cons.injEq] at huv
              obtain ⟨hc', hs'⟩ := huv
              subst hc'
              subst hs'
              exact .altL (.seq ((iha _ _).mpr hu) hv)
      · simp only [deriv, hn, if_false]
        constructor
        · intro h
          obtain ⟨u, v, huv, hu, hv⟩ := sem_seq_inv h
          subst huv
          have hu' := (iha _ _).mp hu
          have := Sem.seq hu' hv
          simpa using this
        · intro h
          obtain ⟨u, v, huv, hu, hv⟩ := sem_seq_inv h
          cases u with
          | nil =>
              exact absurd ((nullable_iff a).mpr hu) (by simpa using hn)
          | cons c' u' =>
              simp only [List.cons_append, List.cons.injEq] at huv
              obtain ⟨hc', hs'⟩ := huv
              subst hc'
              subst hs'
              exact .seq ((iha _ _).mpr hu) hv
  | alt a b iha ihb =>
      intro c s
      simp only [deriv]
      constructor
      · intro h
        rcases sem_alt_inv h with h1 | h1
        · exact .altL ((iha _ _).mp h1)
        · exact .altR ((ihb _ _).mp h1)
      · intro h
        rcases sem_alt_inv h with h1 | h1
        · exact .altL ((iha _ _).mpr h1)
        · exact .altR ((ihb _ _).mpr h1)
  | star a iha =>
      intro c s
      simp only [deriv]
      constructor
      · intro h
        obtain ⟨u, v, huv, hu, hv⟩ := sem_seq_inv h
        subst huv
        have hu' := (iha _ _).mp hu
        have := Sem.starCons hu' hv
        simpa using this
      · intro h
        rcases sem_star_decomp h a rfl with h0 | ⟨u, v, heq, hne, hu, hv⟩
        · cases h0
        · cases u with
          | nil => exact absurd rfl hne
          | cons c' u' =>
              simp only [List.cons_append, List.cons.injEq] at heq
              obtain ⟨hc', hs'⟩ := heq
              subst hc'
              subst hs'
              exact .seq ((iha _ _).mpr hu) hv

theorem matchSomeInit_iff {ci : Bool} :
    ∀ (s : List Char) (r : RE),
      matchSomeInit ci r s = true ↔ ∃ p q, s = p ++ q ∧ Sem ci r p := by
  intro s
  induction s with
  | nil =>
      intro r
      simp only [matchSomeInit]
      constructor
      · intro h
        exact ⟨[], [], rfl, (nullable_iff r).mp h⟩
      · rintro ⟨p, q, heq, hp⟩
        obtain ⟨hp0, _⟩ := List.append_eq_nil.mp heq.symm
        subst hp0
        exact (nullable_iff r).mpr hp
  | cons c cs ih =>
      intro r
      simp only [matchSomeInit, Bool.or_eq_true]
      constructor
      · rintro (hn | hm)
        · exact ⟨[], c :: cs, rfl, (nullable_iff r).mp hn⟩
        · obtain ⟨p, q, heq, hp⟩ := (ih _).mp hm
          exact ⟨c :: p, q, by simp [heq], (deriv_iff _ _ _).mp hp⟩
      · rintro ⟨p, q, heq, hp⟩
        cases p with
        | nil =>
            exact Or.inl ((nullable_iff r).mpr hp)
        | cons c' p' =>
            simp only [List.cons_append, List.cons.injEq] at heq
            obtain ⟨hc', hs'⟩ := heq
            subst hc'
            exact Or.inr ((ih _).mpr ⟨p', q, hs', (deriv_iff _ _ _).mpr hp⟩)

theorem reSearch_iff {ci : Bool} :
    ∀ (s : List Char) (r : RE),
      reSearch ci r s = true ↔
        ∃ pre mid post, s = pre ++ mid ++ post ∧ Sem ci r mid := by
  intro s
  induction s with
  | nil =>
      intro r
      simp only [reSearch]
      constructor
      · intro h
        exact ⟨[], [], [], rfl, (nullable_iff r).mp h⟩
      · rintro ⟨pre, mid, post, heq, hm⟩
        have h1 := List.append_eq_nil.mp heq.symm
        obtain ⟨h2, _⟩ := h1
        obtain ⟨_, h4⟩ := List.append_eq_nil.mp h2
        subst h4
        exact (nullable_iff r).mpr hm
  | cons c cs ih =>
      intro r
      simp only [reSearch, Bool.or_eq_true]
      constructor
      · rintro (hm | hs)
        · obtain ⟨p, q, heq, hp⟩ := (matchSomeInit_iff _ _).mp hm
          exact ⟨[], p, q, by simpa using heq, hp⟩
        · obtain ⟨pre, mid, post, heq, hm⟩ := (ih _).mp hs
          exact ⟨c :: pre, mid, post, by simp [heq], hm⟩
      · rintro ⟨pre, mid, post, heq, hm⟩
        cases pre with
        | nil =>
            refine Or.inl ((matchSomeInit_iff _ _).mpr ⟨mid, post, ?_, hm⟩)
            simpa using heq
        | cons c' pre' =>
            simp only [List.cons_append, List.cons.injEq] at heq
            obtain ⟨hc', hs'⟩ := heq
            subst hc'
            exact Or.inr ((ih _).mpr ⟨pre', mid, post, hs', hm⟩)

/-! ## Pattern compiler (model of `re.compile` on the supported subset)

`compileChars` parses a pattern, producing an `RE` or an error, the
latter modelling `re.compile` raising `re.error`.  It supports literal
characters, `.`, the quantifiers `*` `+` `?` (including the lazy forms
`*?` `+?` `??`, whose language is the same as the greedy ones), `|`,
and groups `(` `)`; the unsupported `re` constructs `^ $ [ ] \ { }` are
rejected. -/

/-- Bookkeeping for quantifier attachment: `fresh` = the atom may take
a quantifier, `quant` = it was just quantified (a further `?` makes it
lazy, a further `*`/`+` is a "multiple repeat" error), `lazyQ` = it is
a lazy quantifier (no further quantifier allowed). -/
inductive QFlag where
  | fresh
  | quant
  | lazyQ
deriving DecidableEq

/-- Parser state: saved contexts for open groups, the alternatives
completed so far (most recent first), and the atoms of the current
alternative (most recent first). -/
structure PState where
  stack : List (List RE × List (RE × QFlag))
  altsRev : List RE
  accRev : List (RE × QFlag)

/-- Sequence a list of atoms (in reading order). -/
def mkSeq : List RE → RE
  | [] => .eps
  | [r] => r
  | r :: rs => .seq r (mkSeq rs)

/-- Join a list of alternatives (in reading order). -/
def mkAlt : List RE → RE
  | [] => .eps
  | [r] => r
  | r :: rs => .alt r (mkAlt rs)

/-- Close the current alternative (atoms stored most recent first). -/
def closeSeq (accRev : List (RE × QFlag)) : RE :=
  mkSeq ((accRev.map (·.1)).reverse)

/-- One step of the pattern parser. -/
def pstep (st : PState) (c : Char) : Except String PState :=
  if c = '(' then
    .ok ⟨(st.altsRev, st.accRev) :: st.stack, [], []⟩
  else if c = ')' then
    match st.stack with
    | [] => .error "unbalanced parenthesis"
    | (altsSaved, accSaved) :: rest =>
        .ok ⟨rest, altsSaved,
          (mkAlt ((closeSeq st.accRev :: st.altsRev).reverse), .fresh) :: accSaved⟩
  else if c = '|' then
    .ok ⟨st.stack, closeSeq st.accRev :: st.altsRev, []⟩
  else if c = '.' then
    .ok ⟨st.stack, st.altsRev, (RE.dot, .fresh) :: st.accRev⟩
  else if c = '*' || c = '+' then
    match st.accRev with
    | [] => .error "nothing to repeat"
    | (r, f) :: rest =>
        match f with
        | .fresh =>
            .ok ⟨st.stack, st.altsRev,
              ((if c = '*' then RE.star r else RE.seq r (RE.star r)), .quant) :: rest⟩
        | _ => .error "multiple repeat"
  else if c = '?' then
    match st.accRev with
    | [] => .error "nothing to repeat"
    | (r, f) :: rest =>
        match f with
        | .fresh => .ok ⟨st.stack, st.altsRev, (RE.alt r .eps, .quant) :: rest⟩
        | .quant => .ok ⟨st.stack, st.altsRev, (r, .lazyQ) :: rest⟩
        | .lazyQ => .error "multiple repeat"
  else if c = '^' || c = '$' || c = '[' || c = ']' || c = '\\' || c = '\x7b' || c = '\x7d' then
    .error "construct outside the modelled re subset"
  else
    .ok ⟨st.stack, st.altsRev, (RE.ch c, .fresh) :: st.accRev⟩

/-- Finish parsing: an open group is Python's
"missing ), unterminated subpattern" error. -/
def pfinish (st : PState) : Except String RE :=
  match st.stack with
  | _ :: _ => .error "missing ), unterminated subpattern"
  | [] => .ok (mkAlt ((closeSeq st.accRev :: st.altsRev).reverse))

/-- Model of `re.compile` on a pattern given as a character list. -/
def compileChars (cs : List Char) : Except String RE := do
  let st ← cs.foldlM pstep ⟨[], [], []⟩
  pfinish st

/-- A pattern character the parser takes literally (and that the
modelled subset supports). -/
def isLit (c : Char) : Bool :=
  !(c = '(' || c = ')' || c = '|' || c = '.' || c = '*' || c = '+' || c = '?' ||
    c = '^' || c = '$' || c = '[' || c = ']' || c = '\\' || c = '\x7b' || c = '\x7d')

/-! ## The two filter strategies -/

/-- Exceptions the embedded program surfaces. -/
inductive PyErr where
  | reError
  | indexError
deriving DecidableEq

/-- Python's `'.*'.join(string)`: the characters of the search term
joined by `.*`. -/
def joinChars : List Char → List Char
  | [] => []
  | [c] => [c]
  | c :: c2 :: cs => c :: '.' :: '*' :: joinChars (c2 :: cs)

/-- Embeds `filter_fuzzy(data, string)`: compile `'.*'.join(string)` with
`re.IGNORECASE` and keep the lines the pattern is found in.  A
compilation failure (`re.error`) escapes as `Except.error`, exactly as
the Python function lets the exception propagate. -/
def filter_fuzzy (data : List String) (s : String) : Except PyErr (List String) :=
  match compileChars (joinChars s.data) with
  | .error _ => .error .reError
  | .ok r => .ok (data.filter fun line => reSearch true r line.data)

/-- Embeds `filter_regex(data, string)`: compile the search term directly —
with no flags, hence case-sensitively — and keep the lines the pattern
is found in.  A compilation failure escapes as `Except.error`. -/
def filter_regex (data : List String) (s : String) : Except PyErr (List String) :=
  match compileChars s.data with
  | .error _ => .error .reError
  | .ok r => .ok (data.filter fun line => reSearch false r line.data)

/-- The regex filter as the specification words it ("compiled directly
as a case-insensitive regular expression"), for comparison with
`filter_regex` above, which embeds the code. -/
def filter_regex_specCI (data : List String) (s : String) : Except PyErr (List String) :=
  match compileChars s.data with
  | .error _ => .error .reError
  | .ok r => .ok (data.filter fun line => reSearch true r line.data)

/-! ## Shape and language of the compiled fuzzy pattern -/

/-- The atoms the parser produces for `'.*'.join(t)` when every
character of `t` is literal: the characters interleaved with `.*`. -/
def fuzzyAtoms : List Char → List RE
  | [] => []
  | [c] => [RE.ch c]
  | c :: c2 :: cs => RE.ch c :: RE.star RE.dot :: fuzzyAtoms (c2 :: cs)

/-- The compiled fuzzy pattern for a search term with literal characters. -/
def fuzzyRE (t : List Char) : RE := mkSeq (fuzzyAtoms t)

/-- The parser accumulator (most recent atom first) after scanning
`'.*'.join(t)`. -/
def fuzzyAccRev : List Char → List (RE × QFlag)
  | [] => []
  | [c] => [(RE.ch c, .fresh)]
  | c :: c2 :: cs =>
      fuzzyAccRev (c2 :: cs) ++ [(RE.star RE.dot, .quant), (RE.ch c, .fresh)]

theorem pstep_lit (stk : List (List RE × List (RE × QFlag))) (alts : List RE)
    (acc : List (RE × QFlag)) {c : Char} (h : isLit c = true) :
    pstep ⟨stk, alts, acc⟩ c = .ok ⟨stk, alts, (RE.ch c, .fresh) :: acc⟩ := by
  simp only [isLit, Bool.not_eq_true', Bool.or_eq_false_iff, decide_eq_false_iff_not] at h
  obtain ⟨⟨⟨⟨⟨⟨⟨⟨⟨⟨⟨⟨⟨h1, h2⟩, h3⟩, h4⟩, h5⟩, h6⟩, h7⟩, h8⟩, h9⟩, h10⟩, h11⟩, h12⟩, h13⟩, h14⟩ := h
  simp [pstep, h1, h2, h3, h4, h5, h6, h7, h8, h9, h10, h11, h12, h13, h14]

theorem ok_bind {ε α β : Type} (a : α) (f : α → Except ε β) :
    (Except.ok a >>= f : Except ε β) = f a := rfl

theorem foldlM_fuzzy (t : List Char) :
    ∀ A : List (RE × QFlag), (∀ c ∈ t, isLit c = true) →
      (joinChars t).foldlM pstep (⟨[], [], A⟩ : PState) =
        .ok ⟨[], [], fuzzyAccRev t ++ A⟩ := by
  induction t using joinChars.induct with
  | case1 =>
      intro A _
      simp only [joinChars, List.foldlM_nil, fuzzyAccRev, List.nil_append]
      rfl
  | case2 c =>
      intro A h
      have hc : isLit c = true := h c (by simp)
      simp [joinChars, fuzzyAccRev, List.foldlM_cons, pstep_lit _ _ _ hc, ok_bind]
  | case3 c c2 cs ih =>
      intro A h
      have hc : isLit c = true := h c (by simp)
      have hrest : ∀ x ∈ c2 :: cs, isLit x = true := fun x hx => h x (by simp [hx])
      have hdot : pstep (⟨[], [], (RE.ch c, .fresh) :: A⟩ : PState) '.' =
          .ok ⟨[], [], (RE.dot, .fresh) :: (RE.ch c, .fresh) :: A⟩ := rfl
      have hstar : pstep (⟨[], [], (RE.dot, .fresh) :: (RE.ch c, .fresh) :: A⟩ : PState) '*' =
          .ok ⟨[], [], (RE.star RE.dot, .quant) :: (RE.ch c, .fresh) :: A⟩ := rfl
      calc (joinChars (c :: c2 :: cs)).foldlM pstep (⟨[], [], A⟩ : PState)
          = (joinChars (c2 :: cs)).foldlM pstep
              (⟨[], [], (RE.star RE.dot, .quant) :: (RE.ch c, .fresh) :: A⟩ : PState) := by
            simp [joinChars, List.foldlM_cons, pstep_lit _ _ _ hc, hdot, hstar, ok_bind]
        _ = .ok ⟨[], [], fuzzyAccRev (c :: c2 :: cs) ++ A⟩ := by
            rw [ih _ hrest]
            simp [fuzzyAccRev]

theorem fuzzyAccRev_atoms (t : List Char) :
    ((fuzzyAccRev t).map (·.1)).reverse = fuzzyAtoms t := by
  induction t using fuzzyAccRev.induct with
  | case1 => rfl
  | case2 c => rfl
  | case3 c c2 cs ih =>
      simp only [fuzzyAccRev, fuzzyAtoms, List.map_append, List.reverse_append, ih]
      rfl

/-- For a search term of literal characters, compiling `'.*'.join(t)`
succeeds and yields the fuzzy pattern. -/
theorem compile_fuzzy (t : List Char) (h : ∀ c ∈ t, isLit c = true) :
    compileChars (joinChars t) = .ok (fuzzyRE t) := by
  unfold compileChars
  rw [foldlM_fuzzy t [] h, ok_bind]
  simp [pfinish, mkAlt, closeSeq, fuzzyAccRev_atoms, fuzzyRE]

theorem fuzzyRE_cons (c c2 : Char) (cs : List Char) :
    fuzzyRE (c :: c2 :: cs) =
      .seq (.ch c) (.seq (.star .dot) (fuzzyRE (c2 :: cs))) := by
  cases cs <;> rfl

theorem sem_star_dot {ci : Bool} {g : List Char} (h : '\n' ∉ g) :
    Sem ci (.star .dot) g := by
  induction g with
  | nil => exact .starNil
  | cons c cs ih =>
      have h1 : c ≠ '\n' := fun e => h (by simp [e])
      have h2 : '\n' ∉ cs := fun e => h (List.mem_cons_of_mem _ e)
      have := Sem.starCons (Sem.dot h1) (ih h2)
      simpa using this

theorem cmatch_true_iff (p c : Char) :
    cmatch true p c = true ↔ p.toLower = c.toLower := by
  simp [cmatch]

/-- Any word of the fuzzy pattern contains the term's characters as a
case-insensitive subsequence. -/
theorem sem_fuzzy_sublist :
    ∀ t m : List Char, Sem true (fuzzyRE t) m →
      List.Sublist (t.map Char.toLower) (m.map Char.toLower) := by
  intro t
  induction t using fuzzyAtoms.induct with
  | case1 =>
      intro m h
      have := sem_eps_inv h
      subst this
      simp
  | case2 c =>
      intro m h
      obtain ⟨c', hw, hm⟩ := sem_ch_inv h
      subst hw
      have hce := (cmatch_true_iff c c').mp hm
      simp only [List.map_cons, List.map_nil, hce]
      exact List.Sublist.refl _
  | case3 c c2 cs ih =>
      intro m h
      rw [fuzzyRE_cons] at h
      obtain ⟨u, v, huv, hu, hv⟩ := sem_seq_inv h
      obtain ⟨c', hu1, hmc⟩ := sem_ch_inv hu
      obtain ⟨g, m2, hv1, _, hm2⟩ := sem_seq_inv hv
      subst huv; subst hu1; subst hv1
      have hsub := ih m2 hm2
      have hsub2 : List.Sublist ((c2 :: cs).map Char.toLower)
          ((g.map Char.toLower) ++ (m2.map Char.toLower)) :=
        hsub.trans (List.sublist_append_right _ _)
      have : List.Sublist (Char.toLower c :: (c2 :: cs).map Char.toLower)
          (Char.toLower c' :: ((g.map Char.toLower) ++ (m2.map Char.toLower))) := by
        rw [(cmatch_true_iff c c').mp hmc]
        exact hsub2.cons₂ _
      simpa using this

/-- Splitting a subsequence relation at its first element, through a map. -/
theorem sublist_map_cons_split {f : Char → Char} :
    ∀ (m : List Char) (x : Char) (l : List Char),
      List.Sublist (x :: l) (m.map f) →
      ∃ p d q, m = p ++ d :: q ∧ f d = x ∧ List.Sublist l (q.map f) := by
  intro m
  induction m with
  | nil =>
      intro x l h
      exact absurd h (by simp)
  | cons d ds ih =>
      intro x l h
      rw [List.map_cons] at h
      cases h with
      | cons _ h1 =>
          obtain ⟨p, d', q, hm, hf, hl⟩ := ih x l h1
          exact ⟨d :: p, d', q, by simp [hm], hf, hl⟩
      | cons₂ _ h1 =>
          exact ⟨[], d, ds, rfl, rfl, h1⟩

/-- A case-insensitive subsequence occurrence inside a newline-free
line yields a substring matching the fuzzy pattern. -/
theorem sublist_to_fuzzy_sem :
    ∀ t m : List Char,
      List.Sublist (t.map Char.toLower) (m.map Char.toLower) → '\n' ∉ m →
      ∃ pre mid post, m = pre ++ mid ++ post ∧ Sem true (fuzzyRE t) mid := by
  intro t
  induction t using fuzzyAtoms.induct with
  | case1 =>
      intro m _ _
      exact ⟨[], [], m, by simp, .eps⟩
  | case2 c =>
      intro m h _
      rw [List.map_cons, List.map_nil] at h
      obtain ⟨p, d, q, hm, hf, _⟩ := sublist_map_cons_split m _ _ h
      refine ⟨p, [d], q, by simp [hm], ?_⟩
      exact .ch ((cmatch_true_iff c d).mpr hf.symm)
  | case3 c c2 cs ih =>
      intro m h hnl
      rw [List.map_cons] at h
      obtain ⟨p, d, q, hm, hf, hl⟩ := sublist_map_cons_split m _ _ h
      have hq : '\n' ∉ q := by
        intro e
        exact hnl (by simp [hm, e])
      obtain ⟨pre2, mid2, post2, hq2, hsem2⟩ := ih q hl hq
      have hpre2 : '\n' ∉ pre2 := by
        intro e
        exact hq (by simp [hq2, e])
      refine ⟨p, d :: (pre2 ++ mid2), post2, ?_, ?_⟩
      · simp [hm, hq2]
      · rw [fuzzyRE_cons]
        have := Sem.seq (Sem.ch ((cmatch_true_iff c d).mpr hf.symm))
          (Sem.seq (sem_star_dot hpre2) hsem2)
        simpa using this

/-- Running `pattern.search` of the compiled fuzzy pattern on a newline-free
line is exactly case-insensitive subsequence containment. -/
theorem reSearch_fuzzy_iff (t m : List Char) (hnl : '\n' ∉ m) :
    reSearch true (fuzzyRE t) m = true ↔
      List.Sublist (t.map Char.toLower) (m.map Char.toLower) := by
  constructor
  · intro h
    obtain ⟨pre, mid, post, heq, hsem⟩ := (reSearch_iff m _).mp h
    have h1 := sem_fuzzy_sublist t mid hsem
    have h2 : List.Sublist (mid.map Char.toLower) (m.map Char.toLower) := by
      subst heq
      simp only [List.map_append, List.append_assoc]
      exact (List.sublist_append_left _ _).trans
        (List.sublist_append_right _ _)
    exact h1.trans h2
  · intro h
    obtain ⟨pre, mid, post, heq, hsem⟩ := sublist_to_fuzzy_sem t m h hnl
    exact (reSearch_iff m _).mpr ⟨pre, mid, post, heq, hsem⟩

/-! ## Python sequence primitives -/

/-- Python list/str indexing `l[i]`: negative indices wrap once from
the end; `none` models an `IndexError`. -/
def pyGet {α : Type} (l : List α) (i : Int) : Option α :=
  let j : Int := if i < 0 then i + l.length else i
  if 0 ≤ j ∧ j < l.length then l[j.toNat]? else none

/-- Python `s[:-1]` on a string: drop the last character (empty stays
empty). -/
def pyDropLast (s : String) : String := String.mk s.data.dropLast

/-- Python `range(a, b)` (step 1) over ints. -/
def pyRange (a b : Int) : List Int :=
  (List.range (b - a).toNat).map fun n : Nat => a + (n : Int)

/-! ## Key decoder (`get_input`) -/

/-- Model of `MAPPINGS.get(ch, ch)`: the single-byte control aliases. -/
def MAPPINGS_get (s : String) : String :=
  if s = "\x0e" then "down"
  else if s = "\x10" then "up"
  else if s = "\x04" then "screen down"
  else s

/-- Model of `ESCKEYS.get(seq)`: the two-byte cursor-key suffixes. -/
def ESCKEYS_get (s : String) : Option String :=
  if s = "[A" then some "up"
  else if s = "[B" then some "down"
  else none

/-- Embeds `get_input()` on a stream of characters: read one character, remap
single-byte aliases, and on the escape character read two more and look
them up (an unknown suffix yields `none`).  Returns the decoded key and
the remaining stream; reading past the end models `sys.stdin.read`
returning the empty string. -/
def get_input (inp : List Char) : Option String × List Char :=
  let ch0 : String := match inp with
    | [] => ""
    | c :: _ => String.singleton c
  let rest := inp.drop 1
  let ch := MAPPINGS_get ch0
  if ch = "\x1b" then
    (ESCKEYS_get (String.mk (rest.take 2)), rest.drop 2)
  else
    (some ch, rest)

/-! ## Interaction loop (`__main__`) -/

/-- The mutable state of the interaction loop.  `rprint` lives in the
outcome, not here: it is only assigned at the moment the loop breaks. -/
structure LoopState where
  focus : Int
  filter_mode : Nat
  search_term : String
  last_search_term : String
  mydata : List String
deriving DecidableEq

/-- The `filters` table, paired with the footer names.  (Only the
functional component is consulted by the embedded loop steps.) -/
def filters : List ((List String → String → Except PyErr (List String)) × String) :=
  [(filter_fuzzy, "fuzzy"), (filter_regex, "regex")]

/-- Embeds `adjust_focus(data, focus, key)`. -/
def adjust_focus (data : List String) (focus : Int) (key : String) : Int :=
  if key = "down" ∧ focus < (data.length : Int) - 1 then focus + 1
  else if key = "up" ∧ ¬focus = 0 then focus - 1
  else focus

/-- The head of each loop iteration: if the search term changed since
the last computation, recompute `mydata` with the current filter and
apply the (off-by-one) clamp `if focus > len(mydata): focus = len(mydata) - 1`.
A `re.error` escaping the filter, or an out-of-range `filters` index,
surfaces as `Except.error`. -/
def recompute (data : List String) (st : LoopState) : Except PyErr LoopState :=
  if st.last_search_term ≠ st.search_term then
    match filters[st.filter_mode]? with
    | none => .error .indexError
    | some fp =>
        match fp.1 data st.search_term with
        | .error e => .error e
        | .ok newdata =>
            .ok { st with
              mydata := newdata
              last_search_term := st.search_term
              focus :=
                if st.focus > (newdata.length : Int) then (newdata.length : Int) - 1
                else st.focus }
  else .ok st

/-- Result of dispatching one decoded key. -/
inductive StepResult where
  | cont (st : LoopState)
  | selected (line : String) (st : LoopState)
  | cancelled (st : LoopState)
deriving DecidableEq

/-- The key dispatch of the loop body, in the source's branch order:
up/down, enter (where `mydata[focus]` may raise `IndexError`),
backspace, ctrl-c, ctrl-t, then any other non-`None` key appended to
the search term. -/
def dispatch (st : LoopState) (key : Option String) : Except PyErr StepResult :=
  match key with
  | some k =>
      if k = "up" ∨ k = "down" then
        .ok (.cont { st with focus := adjust_focus st.mydata st.focus k })
      else if k = "\r" ∨ k = "\n" then
        match pyGet st.mydata st.focus with
        | some line => .ok (.selected line st)
        | none => .error .indexError
      else if k = "\x7f" then
        .ok (.cont { st with search_term := pyDropLast st.search_term })
      else if k = "\x03" then
        .ok (.cancelled st)
      else if k = "\x14" then
        .ok (.cont { st with filter_mode := (st.filter_mode + 1) % filters.length })
      else
        .ok (.cont { st with search_term := st.search_term ++ k })
  | none => .ok (.cont st)

/-- One loop iteration on an already-decoded key: the recomputation
phase (after which the frame is rendered) followed by the dispatch of
the key read afterwards. -/
def loopIter (data : List String) (st : LoopState) (key : Option String) :
    Except PyErr StepResult :=
  match recompute data st with
  | .error e => .error e
  | .ok st1 => dispatch st1 key

/-- How a (finite) interaction ends. -/
inductive RunOutcome where
  | selected (line : String) (st : LoopState)
  | cancelled (st : LoopState)
  | pending (st : LoopState)
deriving DecidableEq

/-- The interaction loop over a finite sequence of decoded keys;
`pending` is the state still waiting for input when the sequence runs
out. -/
def run (data : List String) (st : LoopState) :
    List (Option String) → Except PyErr RunOutcome
  | [] => .ok (.pending st)
  | k :: ks =>
      match loopIter data st k with
      | .error e => .error e
      | .ok (.cont st1) => run data st1 ks
      | .ok (.selected l st1) => .ok (.selected l st1)
      | .ok (.cancelled st1) => .ok (.cancelled st1)

/-- The loop's initial state: focus 0, fuzzy mode, empty search term,
`mydata = data`. -/
def initState (data : List String) : LoopState :=
  { focus := 0, filter_mode := 0, search_term := "", last_search_term := "",
    mydata := data }

/-- Python truthiness of the `rprint` value (`False` or a string): a
string is truthy iff nonempty. -/
def pyTruthy (s : String) : Bool := !s.isEmpty

/-- The whole program after the line list has been read: run the loop
inside the `Console()` scope; after the terminal session is released,
`if rprint: print(rprint)` and `sys.exit(0)`.  The result is the list
of lines written to the original stdout paired with the exit code;
`none` models a loop still blocked on input. -/
def choose_main (data : List String) (keys : List (Option String)) :
    Except PyErr (Option (List String × Nat)) :=
  match run data (initState data) keys with
  | .error e => .error e
  | .ok (.pending _) => .ok none
  | .ok (.selected l _) => .ok (some ((if pyTruthy l then [l] else []), 0))
  | .ok (.cancelled _) => .ok (some ([], 0))

/-! ## Viewport renderer -/

/-- The fixed header. -/
def firstline : String :=
  "Navigate with ↑ and ↓, `return` exits and prints currently selected line"

/-- Embeds `out(line, width)`: the cell text `line[:width].ljust(width)`
(colouring adds no visible columns). -/
def out (line : String) (width : Nat) : String :=
  String.mk (line.data.take width ++
    List.replicate (width - (line.data.take width).length) ' ')

/-- One body cell: `data[lineno]` guarded by `try/except IndexError`,
which renders a blank padded line. -/
def render_cell (data : List String) (lineno : Int) (width : Nat) : String :=
  match pyGet data lineno with
  | some l => out l width
  | none => out "" width

/-- Embeds `render(data, width, height, focus, lastline)` as the list of row
texts it writes: the header, the body rows `range(lower, lower + height - 2)`,
and the footer. -/
def render (data : List String) (width height : Nat) (focus : Int)
    (lastline : String) : List String :=
  let lower : Int :=
    if focus + (height : Int) - 2 > (data.length : Int) then
      max 0 ((data.length : Int) - (height : Int) + 2)
    else focus
  [out firstline width]
    ++ (pyRange lower (lower + (height : Int) - 2)).map
        (fun lineno => render_cell data lineno width)
    ++ [out lastline width]

/-! ## Auxiliary lemmas for the claim theorems -/

theorem reSearch_eps (ci : Bool) (l : List Char) : reSearch ci .eps l = true := by
  cases l with
  | nil => rfl
  | cons c cs => simp [reSearch, matchSomeInit, nullable]

theorem out_length (line : String) (width : Nat) : (out line width).length = width := by
  simp only [out, String.length]
  simp only [List.length_append, List.length_take, List.length_replicate]
  omega

theorem pyRange_length (a b : Int) : (pyRange a b).length = (b - a).toNat := by
  rw [pyRange, List.length_map, List.length_range]

theorem render_cell_length (data : List String) (lineno : Int) (width : Nat) :
    (render_cell data lineno width).length = width := by
  cases h : pyGet data lineno <;> simp [render_cell, h, out_length]

/-! ## Claim theorems -/

/-- Claim C1 — the claimed invariant "Focus Index lies in
`[0, max(0, len(filteredView)-1)]` after every transition" is violated
by the code's off-by-one clamp (`if focus > len(mydata)`): on line list
`["ab", "b"]`, pressing down (focus 1) and then typing `a` shrinks the
filtered view to `["ab"]` (length 1), and the recomputation that
precedes the next render leaves the focus at 1, outside `[0, 0]`. -/
theorem c1_focus_outside_bounds_at_render :
    run ["ab", "b"] (initState ["ab", "b"]) [some "down", some "a"] =
      .ok (.pending { focus := 1
                      filter_mode := 0
                      search_term := "a"
                      last_search_term := ""
                      mydata := ["ab", "b"] }) ∧
    recompute ["ab", "b"] { focus := 1
                            filter_mode := 0
                            search_term := "a"
                            last_search_term := ""
                            mydata := ["ab", "b"] } =
      .ok { focus := 1
            filter_mode := 0
            search_term := "a"
            last_search_term := "a"
            mydata := ["ab"] } ∧
    ¬((1 : Int) ≤ max 0 ((1 : Int) - 1)) :=
  ⟨rfl, rfl, by decide⟩

/-- Claim C2 — the claim that an invalid regex pattern "does not raise
out of the Filter Engine boundary" is violated by the code:
`filter_regex` compiles the term with no exception handler, so on the
pattern `(` the `re.error` escapes, and in the loop (after ctrl-t into
regex mode and typing `(`) the next recomputation aborts the whole
interaction instead of continuing. -/
theorem c2_invalid_regex_escapes_loop :
    filter_regex ["a"] "(" = .error .reError ∧
    run ["a"] (initState ["a"]) [some "\x14", some "(", none] =
      .error .reError :=
  ⟨rfl, rfl⟩

/-- Claim C3, counterexample — the toggle-mode key does *not* force a
recomputation on the next loop cycle: on line list `["A"]`, after
typing `a` (fuzzy view `["A"]`) and pressing ctrl-t, the next cycle's
recomputation is the identity (search term unchanged), so the loop
renders `["A"]` although the now-current regex filter yields `[]`. -/
theorem c3_counterexample_toggle_is_stale :
    run ["A"] (initState ["A"]) [some "a", some "\x14"] =
      .ok (.pending { focus := 0
                      filter_mode := 1
                      search_term := "a"
                      last_search_term := "a"
                      mydata := ["A"] }) ∧
    recompute ["A"] { focus := 0
                      filter_mode := 1
                      search_term := "a"
                      last_search_term := "a"
                      mydata := ["A"] } =
      .ok { focus := 0
            filter_mode := 1
            search_term := "a"
            last_search_term := "a"
            mydata := ["A"] } ∧
    filter_regex ["A"] "a" = .ok [] :=
  ⟨rfl, rfl, rfl⟩

/-- Claim C3, amended — the Filtered View is recomputed only when the
Search Term differs from its value at the last computation; the
toggle-mode key alone changes the filter mode and nothing else, so the
new mode takes effect only at the next search-term change. -/
theorem c3_amended_toggle_does_not_recompute
    (data : List String) (st : LoopState)
    (h : st.last_search_term = st.search_term) :
    loopIter data st (some "\x14") =
      .ok (.cont { st with filter_mode := (st.filter_mode + 1) % 2 }) := by
  unfold loopIter recompute
  rw [if_neg (not_not_intro h)]
  simp [dispatch, filters]

theorem c3_amended_toggle_witness :
    loopIter ["a"] (initState ["a"]) (some "\x14") =
      .ok (.cont { focus := 0
                   filter_mode := 1
                   search_term := ""
                   last_search_term := ""
                   mydata := ["a"] }) :=
  c3_amended_toggle_does_not_recompute ["a"] (initState ["a"]) rfl

/-- Claim C4, counterexample — the regex filter is *not*
case-insensitive: the code compiles the term with no flags
(`re.compile(string)`), so on line list `["ABC"]` the term `abc` keeps
nothing, while the specification's case-insensitive compilation
(`filter_regex_specCI`) would keep `"ABC"`. -/
theorem c4_counterexample_case_sensitivity :
    filter_regex ["ABC"] "abc" = .ok [] ∧
    filter_regex_specCI ["ABC"] "abc" = .ok ["ABC"] :=
  ⟨rfl, rfl⟩

/-- Claim C4, amended — in regex filter mode, for every line list and
every search term the embedded compiler accepts, the term is compiled
as a *case-sensitive* regular expression and a line is kept exactly
when the expression matches anywhere in it (some substring of the line
is in the expression's language). -/
theorem c4_amended_regex_filter_matches_anywhere
    (L : List String) (s : String) (r : RE)
    (h : compileChars s.data = .ok r) :
    ∃ res, filter_regex L s = .ok res ∧
      ∀ line, line ∈ res ↔ line ∈ L ∧
        ∃ pre mid post, line.data = pre ++ mid ++ post ∧ Sem false r mid := by
  refine ⟨L.filter fun line => reSearch false r line.data, by simp [filter_regex, h], ?_⟩
  intro line
  rw [List.mem_filter]
  simp [reSearch_iff]

theorem c4_amended_regex_filter_witness :
    compileChars "b".data = .ok (.ch 'b') ∧
    ∃ res, filter_regex ["abc", "xyz"] "b" = .ok res ∧
      ∀ line, line ∈ res ↔ line ∈ ["abc", "xyz"] ∧
        ∃ pre mid post, line.data = pre ++ mid ++ post ∧
          Sem false (.ch 'b') mid :=
  ⟨rfl, c4_amended_regex_filter_matches_anywhere ["abc", "xyz"] "b" (.ch 'b') rfl⟩

/-- Claim C5, counterexample — as stated over *every* search term the
claim is false, because the term's characters are spliced into the
pattern as regex syntax: with term `"."` the fuzzy filter keeps
`"ab"`, yet `"ab"` does not contain the character `.` as a
(case-insensitive) subsequence. -/
theorem c5_counterexample_metacharacter_term :
    filter_fuzzy ["ab"] "." = .ok ["ab"] ∧
    ¬ List.Sublist (".".data.map Char.toLower) ("ab".data.map Char.toLower) :=
  ⟨rfl, by decide⟩

/-- Claim C5, amended — for every line list, every search term whose
characters are literal pattern characters (no regex metacharacters),
and every newline-free line, the fuzzy filter keeps the line exactly
when it contains the term's characters as a case-insensitive
subsequence, in order, with arbitrary text interleaved. -/
theorem c5_amended_fuzzy_is_ci_subsequence
    (L : List String) (s line : String)
    (hs : ∀ c ∈ s.data, isLit c = true) (hl : '\n' ∉ line.data) :
    ∃ res, filter_fuzzy L s = .ok res ∧
      (line ∈ res ↔ line ∈ L ∧
        List.Sublist (s.data.map Char.toLower) (line.data.map Char.toLower)) := by
  have hc := compile_fuzzy s.data hs
  refine ⟨L.filter fun l => reSearch true (fuzzyRE s.data) l.data,
    by simp [filter_fuzzy, hc], ?_⟩
  rw [List.mem_filter]
  simp [reSearch_fuzzy_iff _ _ hl]

theorem c5_amended_fuzzy_witness :
    (∀ c ∈ "ab".data, isLit c = true) ∧ '\n' ∉ "xaxb".data ∧
    ∃ res, filter_fuzzy ["xaxb", "q"] "ab" = .ok res ∧
      ("xaxb" ∈ res ↔ "xaxb" ∈ ["xaxb", "q"] ∧
        List.Sublist ("ab".data.map Char.toLower)
          ("xaxb".data.map Char.toLower)) :=
  ⟨by decide, by decide,
    c5_amended_fuzzy_is_ci_subsequence ["xaxb", "q"] "ab" "xaxb"
      (by decide) (by decide)⟩

/-- Claim C6 — the claim "on normal selection exactly one line is
written" is violated when the selected line is the empty string:
`rprint` doubles as the `False` cancellation sentinel, so after
confirming the empty line (line list `[""]`, enter at focus 0) the
program writes nothing at all — indistinguishable from cancellation —
though it still exits with code 0. -/
theorem c6_empty_selection_writes_nothing :
    run [""] (initState [""]) [some "\r"] =
      .ok (.selected "" (initState [""])) ∧
    choose_main [""] [some "\r"] = .ok (some ([], 0)) :=
  ⟨rfl, rfl⟩

/-- Claim C7 — the empty search term is an identity for the fuzzy
filter: `'.*'.join("")` compiles to the empty pattern, which is found
in every line, so `filter_fuzzy L "" = L` for every line list `L`. -/
theorem c7_fuzzy_empty_term_identity (L : List String) :
    filter_fuzzy L "" = .ok L := by
  have h1 : filter_fuzzy L "" =
      .ok (L.filter fun line => reSearch true .eps line.data) := rfl
  have h2 : (L.filter fun line => reSearch true RE.eps line.data) = L :=
    List.filter_eq_self.mpr fun a _ => reSearch_eps true a.data
  rw [h1, h2]

/-- Claim C8, counterexample — `render` does not write *exactly*
`height` rows for every height: the header and footer are written
unconditionally, so at `height = 1` it writes 2 rows. -/
theorem c8_counterexample_height_one :
    (render [] 3 1 0 "").length = 2 ∧ (render [] 3 1 0 "").length ≠ 1 :=
  ⟨rfl, by decide⟩

/-- Claim C8, amended — `render` writes `max 2 height` rows — exactly
`height` whenever `height ≥ 2` — every row's text truncated then
padded to exactly `width` columns, and any row index beyond the end of
the filtered view renders as a blank padded line rather than raising. -/
theorem c8_amended_render_dimensions
    (data : List String) (width height : Nat) (focus : Int)
    (lastline : String) :
    (render data width height focus lastline).length = max 2 height ∧
    (∀ row ∈ render data width height focus lastline, row.length = width) ∧
    (∀ lineno : Int, (data.length : Int) ≤ lineno →
      render_cell data lineno width = out "" width) := by
  refine ⟨?_, ?_, ?_⟩
  · simp only [render, List.length_append, List.length_cons, List.length_nil,
      List.length_map, pyRange_length]
    have h : ∀ lower : Int, lower + (height : Int) - 2 - lower = (height : Int) - 2 :=
      fun lower => by ring
    rw [h]
    omega
  · intro row hrow
    simp only [render, List.mem_append, List.mem_cons, List.mem_map,
      List.not_mem_nil, or_false] at hrow
    rcases hrow with (h1 | ⟨lineno, _, h2⟩) | h3
    · rw [h1]; exact out_length _ _
    · rw [← h2]; exact render_cell_length _ _ _
    · rw [h3]; exact out_length _ _
  · intro lineno hle
    have h1 : ¬ lineno < 0 := by omega
    have h2 : ¬ (0 ≤ lineno ∧ lineno < (data.length : Int)) := by omega
    simp [render_cell, pyGet, h1, h2]

theorem c8_amended_render_witness :
    (render ["x"] 2 3 0 "").length = max 2 3 ∧
    (out firstline 2).length = 2 ∧
    render_cell ["x"] 5 2 = out "" 2 :=
  ⟨(c8_amended_render_dimensions ["x"] 2 3 0 "").1,
    (c8_amended_render_dimensions ["x"] 2 3 0 "").2.1 (out firstline 2) (by decide),
    (c8_amended_render_dimensions ["x"] 2 3 0 "").2.2 5 (by decide)⟩

/-- Claim C9 — with line list `["a"]`, typing `b` empties the filtered
view (focus stays 0), and pressing enter evaluates `mydata[focus]` on
an empty sequence: the `IndexError` escapes the interaction loop and
aborts the run instead of terminating normally with a selection. -/
theorem c9_enter_on_empty_view_raises :
    run ["a"] (initState ["a"]) [some "b", some "\r"] =
      .error .indexError :=
  rfl

/-- Claim C10 — ctrl-d (`'\x04'`) decodes to the logical token
`"screen down"`; no branch of the dispatch treats it as navigation, so
it falls through to the default character branch, appending the
literal eleven-character string `"screen down"` to the search term of
any state. -/
theorem c10_ctrl_d_appends_screen_down :
    get_input ['\x04'] = (some "screen down", []) ∧
    "screen down".length = 11 ∧
    ∀ st : LoopState, dispatch st (some "screen down") =
      .ok (.cont { st with search_term := st.search_term ++ "screen down" }) := by
  refine ⟨rfl, rfl, ?_⟩
  intro st
  simp [dispatch]

end Choose
